import Mathlib

/-!
Verification of the TNID identifier core against its specification.

The repository source under `src/packages/wasm/rust/src/lib.rs` is the
wasm boundary layer; it calls into the `tnid` core crate (not present in
the repository) for the payload codec, the text codecs, name validation
and the encryption transform.  Definitions below that embed the missing
core are marked `Modelled from the spec:` and follow the specification's
wording; definitions embedding `lib.rs` itself follow that file.

Machine integers are modelled as `ℕ` with explicit `% 2 ^ w`; strings are
modelled as `List Char`; fallible operations return `Except`.
-/

namespace Tnid

/-- The four TNID variants, as matched in `get_variant`
(`lib.rs` lines 86-91): `V0` time-ordered, `V1` high-entropy,
`V2`/`V3` reserved. -/
inductive TnidVariant
  | V0
  | V1
  | V2
  | V3
deriving DecidableEq, Repr

/-- Modelled from the spec: the fixed bit encoding of the variant tag
(spec §3: "one of {V0 = time-ordered, V1 = high-entropy, V2, V3 =
reserved}", a "2-bit (or equivalent) discriminator").  The tag values
0..3 name V0..V3. -/
def tagOfVariant : TnidVariant → ℕ
  | .V0 => 0
  | .V1 => 1
  | .V2 => 2
  | .V3 => 3

/-- Modelled from the spec: recover the variant from its 2-bit tag.
Every tag value is one of the four variants (spec §9: variants are "a
closed, fixed enumeration"). -/
def variantOfTag (t : ℕ) : TnidVariant :=
  if t = 0 then .V0
  else if t = 1 then .V1
  else if t = 2 then .V2
  else .V3

/-- Modelled from the spec: the payload's variant-tag bits.  The spec
leaves the exact offsets open (§9) and requires the implementer to fix
one documented bit map; this development fixes the tag in the top two
bits (bits 126-127) of the 128-bit payload. -/
def tagBits (p : ℕ) : ℕ := p / 2 ^ 126

/-- Modelled from the spec: the 126 payload bits that are not the
variant tag (bits 0-125). -/
def fieldBits (p : ℕ) : ℕ := p % 2 ^ 126

/-- Modelled from the spec: decode the variant from a payload's tag
bits (spec §4.2 `decode`: "extracts the tag bits first to determine
variant"). -/
def variantOfPayload (p : ℕ) : TnidVariant := variantOfTag (tagBits p)

/-- Modelled from the spec: `encode_v0` (spec §4.2).  Documented bit
map fixed by this development: tag in bits 126-127, the millisecond
timestamp in bits 64-125 (truncated to 62 bits, the bits sacrificed to
the tag per §4.2/§9), the 64-bit random value in bits 0-63. -/
def encode_v0 (timestamp_ms random : ℕ) : ℕ :=
  tagOfVariant .V0 * 2 ^ 126 + (timestamp_ms % 2 ^ 62) * 2 ^ 64 + random % 2 ^ 64

/-- Modelled from the spec: `encode_v1` (spec §4.2): a 128-bit random
value with the V1 tag overlaid on the tag bits. -/
def encode_v1 (random : ℕ) : ℕ :=
  tagOfVariant .V1 * 2 ^ 126 + random % 2 ^ 126

/-- Modelled from the spec: the timestamp field extracted from a V0
payload (bits 64-125 of the fixed bit map). -/
def decode_v0_timestamp (p : ℕ) : ℕ := (p / 2 ^ 64) % 2 ^ 62

/-- Modelled from the spec: the random field extracted from a V0
payload (bits 0-63 of the fixed bit map). -/
def decode_v0_random (p : ℕ) : ℕ := p % 2 ^ 64

/-- Modelled from the spec: `decode` (spec §4.2): extract the tag bits
first to determine the variant, then the remaining fields per variant
(for V2/V3 only the raw non-tag bits are exposed). -/
def decode (p : ℕ) : TnidVariant × List ℕ :=
  match variantOfPayload p with
  | .V0 => (.V0, [decode_v0_timestamp p, decode_v0_random p])
  | .V1 => (.V1, [fieldBits p])
  | .V2 => (.V2, [fieldBits p])
  | .V3 => (.V3, [fieldBits p])

/-- Name validation errors (spec §4.1 / §7). -/
inductive NameError
  | InvalidLength
  | InvalidCharacter
deriving DecidableEq, Repr

/-- Modelled from the spec: the allowed name character set.  The spec
fixes "a restricted alphabet" without listing it (§3); modelled as the
lowercase ASCII letters, consistent with the spec's examples
(`"usr"`, `"ab"`). -/
def allowedNameChar (c : Char) : Bool := 97 ≤ c.toNat && c.toNat ≤ 122

/-- Modelled from the spec: `NameStr::new` / `validate` (spec §4.1):
fails with `InvalidLength` if the candidate is empty or longer than 4
characters, with `InvalidCharacter` if any character falls outside the
allowed set. -/
def NameStr.new (s : List Char) : Except NameError (List Char) :=
  if s.length = 0 ∨ 4 < s.length then .error .InvalidLength
  else if s.all allowedNameChar then .ok s
  else .error .InvalidCharacter

/-- A TNID value: the (Name, Payload) pair; the Variant is always the
one encoded in the payload's tag bits (spec §3: "Variant is always
consistent with the tag bits actually present in Payload"). -/
structure DynamicTnid where
  name : List Char
  payload : ℕ
deriving DecidableEq, Repr

/-- The variant of a TNID, read from its payload's tag bits
(`tnid.variant()` in `lib.rs` line 86). -/
def DynamicTnid.variant (t : DynamicTnid) : TnidVariant := variantOfPayload t.payload

/-! Section: Fixed-width positional numerals

Both textual codecs render the 128-bit payload as a fixed-width digit
string (base 32 for the native form, base 16 for the UUID form). -/

/-- The `w` base-`b` digits of `v`, most significant first. -/
def natToDigits (b : ℕ) : ℕ → ℕ → List ℕ
  | 0, _ => []
  | w + 1, v => natToDigits b w (v / b) ++ [v % b]

/-- The value of a base-`b` digit string, most significant first. -/
def digitsToNat (b : ℕ) (ds : List ℕ) : ℕ :=
  ds.foldl (fun a d => a * b + d) 0

/-- Parsing errors (spec §4.3 / §7). -/
inductive ParseError
  | MalformedString
  | MalformedUuid
  | UnknownVariant
deriving DecidableEq, Repr

/-- Modelled from the spec: the "fixed compact alphabet" of the native
payload encoding (spec §4.3, "not raw hex").  Modelled as base 32 with
digits `0`-`9` then `a`-`v`. -/
def digitChar32 (d : ℕ) : Char :=
  if d < 10 then Char.ofNat (48 + d) else Char.ofNat (87 + d)

/-- Modelled from the spec: the value of one native-alphabet digit
character, `none` outside the alphabet. -/
def charVal32 (c : Char) : Option ℕ :=
  if 48 ≤ c.toNat ∧ c.toNat ≤ 57 then some (c.toNat - 48)
  else if 97 ≤ c.toNat ∧ c.toNat ≤ 118 then some (c.toNat - 87)
  else none

/-- Decode a run of native-alphabet digit characters; `none` if any
character is outside the alphabet. -/
def charsToDigits32 : List Char → Option (List ℕ)
  | [] => some []
  | c :: cs =>
    match charVal32 c, charsToDigits32 cs with
    | some d, some ds => some (d :: ds)
    | _, _ => none

/-- Modelled from the spec: the variant discriminator token of the
native string form (spec §4.3: the native form combines the name, "a
variant discriminator", and the payload encoding). -/
def variantChar : TnidVariant → Char
  | .V0 => '0'
  | .V1 => '1'
  | .V2 => '2'
  | .V3 => '3'

/-- Modelled from the spec: read a variant discriminator token back. -/
def variantOfChar (c : Char) : Option TnidVariant :=
  if c = '0' then some .V0
  else if c = '1' then some .V1
  else if c = '2' then some .V2
  else if c = '3' then some .V3
  else none

/-- Modelled from the spec: `to_tnid_string` (spec §4.3): the native
compact form combining the name, a variant discriminator and a
fixed-width base-32 encoding of the payload (26 digits carry 130 ≥ 128
bits), joined by a separator `_` that cannot collide with the name
alphabet. -/
def to_tnid_string (n : List Char) (v : TnidVariant) (p : ℕ) : List Char :=
  n ++ '_' :: variantChar v :: (natToDigits 32 26 p).map digitChar32

/-- Modelled from the spec: `parse_tnid_string` (spec §4.3): the
inverse of `to_tnid_string`.  Fails with `MalformedString` on any
structural defect (bad name, bad variant token, wrong length, invalid
alphabet, out-of-range payload) and with `UnknownVariant` if the
decoded tag bits contradict the variant token. -/
def parse_tnid_string (s : List Char) : Except ParseError (List Char × TnidVariant × ℕ) :=
  match NameStr.new (s.takeWhile (fun c => c != '_')) with
  | .error _ => .error .MalformedString
  | .ok n =>
    match s.dropWhile (fun c => c != '_') with
    | '_' :: vc :: rest =>
      match variantOfChar vc with
      | none => .error .MalformedString
      | some v =>
        if rest.length = 26 then
          match charsToDigits32 rest with
          | none => .error .MalformedString
          | some ds =>
            if digitsToNat 32 ds < 2 ^ 128 then
              if variantOfPayload (digitsToNat 32 ds) = v then .ok (n, v, digitsToNat 32 ds)
              else .error .UnknownVariant
            else .error .MalformedString
        else .error .MalformedString
    | _ => .error .MalformedString

/-- Render a TNID in its native string form (the core's `to_string`,
called throughout `lib.rs`). -/
def DynamicTnid.render (t : DynamicTnid) : List Char :=
  to_tnid_string t.name t.variant t.payload

/-! Section: UUID text codec -/

/-- The letter case of a UUID rendering (`Case` in the tnid core crate,
used at `lib.rs` line 79 as `Case::Lower`). -/
inductive Case
  | Upper
  | Lower
deriving DecidableEq, Repr

/-- Hex digit character in the requested case: `0`-`9`, then `a`-`f`
(lower) or `A`-`F` (upper). -/
def hexDigitChar (cs : Case) (d : ℕ) : Char :=
  match cs with
  | .Lower => if d < 10 then Char.ofNat (48 + d) else Char.ofNat (87 + d)
  | .Upper => if d < 10 then Char.ofNat (48 + d) else Char.ofNat (55 + d)

/-- The value of a hex digit character, accepting either case;
`none` for non-hex characters. -/
def hexVal (c : Char) : Option ℕ :=
  if 48 ≤ c.toNat ∧ c.toNat ≤ 57 then some (c.toNat - 48)
  else if 97 ≤ c.toNat ∧ c.toNat ≤ 102 then some (c.toNat - 87)
  else if 65 ≤ c.toNat ∧ c.toNat ≤ 70 then some (c.toNat - 55)
  else none

/-- Decode a run of hex characters (either case); `none` if any
character is not a hex digit. -/
def charsToHexDigits : List Char → Option (List ℕ)
  | [] => some []
  | c :: cs =>
    match hexVal c, charsToHexDigits cs with
    | some d, some ds => some (d :: ds)
    | _, _ => none

/-- The 32 hex characters of a payload, most significant first. -/
def uuidHexChars (p : ℕ) (cs : Case) : List Char :=
  (natToDigits 16 32 p).map (hexDigitChar cs)

/-- Group 32 hex characters as 8-4-4-4-12 with hyphens. -/
def insertUuidDashes (hx : List Char) : List Char :=
  hx.take 8 ++ ('-' :: ((hx.drop 8).take 4 ++
    ('-' :: (((hx.drop 8).drop 4).take 4 ++
      ('-' :: ((((hx.drop 8).drop 4).drop 4).take 4 ++
        ('-' :: ((((hx.drop 8).drop 4).drop 4).drop 4))))))))

/-- Modelled from the spec: `to_uuid_string` (spec §4.3): renders the
payload as a standard 8-4-4-4-12 hyphenated hex string in the requested
letter case; the Name is not represented. -/
def to_uuid_string (p : ℕ) (cs : Case) : List Char :=
  insertUuidDashes (uuidHexChars p cs)

/-- Require a leading hyphen and return what follows it. -/
def expectDash : List Char → Option (List Char)
  | '-' :: t => some t
  | _ => none

/-- Recover the 32 hex characters of an 8-4-4-4-12 hyphenated UUID
string; `none` on any structural defect. -/
def splitUuid (s : List Char) : Option (List Char) :=
  (expectDash (s.drop 8)).bind fun t1 =>
  (expectDash (t1.drop 4)).bind fun t2 =>
  (expectDash (t2.drop 4)).bind fun t3 =>
  (expectDash (t3.drop 4)).bind fun t4 =>
  if s.length = 36 then
    some (s.take 8 ++ (t1.take 4 ++ (t2.take 4 ++ (t3.take 4 ++ t4))))
  else none

/-- Modelled from the spec: `parse_uuid_string` (spec §4.3): parses a
standard UUID string into a payload, decodes its variant, and pairs it
with the separately supplied name.  Fails with `MalformedUuid` on any
non-conforming hex/hyphen structure.  Hex digits are accepted in
either case. -/
def parse_uuid_string (n : List Char) (s : List Char) :
    Except ParseError (List Char × TnidVariant × ℕ) :=
  match splitUuid s with
  | none => .error .MalformedUuid
  | some hx =>
    match charsToHexDigits hx with
    | none => .error .MalformedUuid
    | some ds => .ok (n, variantOfPayload (digitsToNat 16 ds), digitsToNat 16 ds)

/-! Section: Encryption transform and key material -/

/-- Transform errors (spec §4.4 / §7). -/
inductive TransformError
  | WrongVariant
deriving DecidableEq, Repr

/-- Key material errors (spec §4.4 / §7). -/
inductive KeyError
  | InvalidKeyLength
  | InvalidKeyDigit
deriving DecidableEq, Repr

/-- Modelled from the spec: the single-block key-parameterized
bijective transform on the 126 non-tag payload bits (spec §4.4).  The
spec fixes only that it is a keyed bijection on the field-bit space;
modelled as XOR with the low 126 key bits, which is such a bijection
(and its own inverse). -/
def permuteFieldBits (k x : ℕ) : ℕ :=
  (x % 2 ^ 126) ^^^ (k % 2 ^ 126)

/-- Modelled from the spec: `encrypt_v0_to_v1` (spec §4.4): requires
variant V0 (else `WrongVariant`), applies the keyed bijection to the
non-tag payload bits, overwrites the tag bits with the V1 tag, and
carries the name through unchanged. -/
def DynamicTnid.encrypt_v0_to_v1 (t : DynamicTnid) (k : ℕ) :
    Except TransformError DynamicTnid :=
  if t.variant = .V0 then
    .ok ⟨t.name, tagOfVariant .V1 * 2 ^ 126 + permuteFieldBits k (fieldBits t.payload)⟩
  else .error .WrongVariant

/-- Modelled from the spec: `decrypt_v1_to_v0` (spec §4.4): requires
variant V1 (else `WrongVariant`), applies the inverse keyed bijection
(XOR is its own inverse) to the non-tag payload bits, overwrites the
tag bits with the V0 tag, and carries the name through unchanged. -/
def DynamicTnid.decrypt_v1_to_v0 (t : DynamicTnid) (k : ℕ) :
    Except TransformError DynamicTnid :=
  if t.variant = .V1 then
    .ok ⟨t.name, tagOfVariant .V0 * 2 ^ 126 + permuteFieldBits k (fieldBits t.payload)⟩
  else .error .WrongVariant

/-- Modelled from the spec: `EncryptionKey::from_hex` (spec §4.4: the
key is "exactly 128 bits, supplied as raw bytes or a fixed-length hex
string; fails with `InvalidKeyLength` otherwise"): exactly 32 hex
characters. -/
def EncryptionKey.from_hex (s : List Char) : Except KeyError ℕ :=
  if s.length = 32 then
    match charsToHexDigits s with
    | some ds => .ok (digitsToNat 16 ds)
    | none => .error .InvalidKeyDigit
  else .error .InvalidKeyLength

/-- Modelled from the spec: key construction from raw bytes (spec
§4.4): exactly 16 bytes, else `InvalidKeyLength`. -/
def EncryptionKey.from_bytes (bs : List ℕ) : Except KeyError ℕ :=
  if bs.length = 16 then .ok (digitsToNat 256 (bs.map (fun b => b % 256)))
  else .error .InvalidKeyLength

/-- Modelled from the spec: `new_v0_with_parts` (called at `lib.rs`
line 47): builds a V0 TNID from a validated name, a millisecond
timestamp and a 64-bit random value via the V0 payload encoder. -/
def DynamicTnid.new_v0_with_parts (n : List Char) (timestamp_ms random : ℕ) : DynamicTnid :=
  ⟨n, encode_v0 timestamp_ms random⟩

/-! Section: The wasm boundary layer (`src/packages/wasm/rust/src/lib.rs`)

The wrapper converts every core error into a `JsError`; the model keeps
the failure's origin as a constructor. -/

/-- The wrapper's error value, keeping which failure produced it. -/
inductive JsError
  | fromName (e : NameError)
  | fromParse (e : ParseError)
  | fromKey (e : KeyError)
  | fromTransform (e : TransformError)
  | randomHexLength
  | randomHexDigit
deriving DecidableEq, Repr

/-- Strip one optional leading `+` sign. -/
def dropLeadingPlus (s : List Char) : List Char :=
  match s with
  | c :: rest => if c = '+' then rest else c :: rest
  | [] => []

/-- Semantics of `u64::from_str_radix(s, 16)` (`lib.rs` line 45) on the
character list of `s`: an optional leading `+`, then one or more hex
digits (either case), value below `2 ^ 64`. -/
def u64FromHexStr (s : List Char) : Option ℕ :=
  if (dropLeadingPlus s).length = 0 then none
  else
    match charsToHexDigits (dropLeadingPlus s) with
    | none => none
    | some ds =>
      if digitsToNat 16 ds < 2 ^ 64 then some (digitsToNat 16 ds) else none

/-- `parse` (`lib.rs` lines 16-19): parse a TNID string and return the
re-rendered string of the parsed TNID. -/
def wasm_parse (s : List Char) : Except JsError (List Char) :=
  match parse_tnid_string s with
  | .error e => .error (.fromParse e)
  | .ok (n, v, p) => .ok (to_tnid_string n v p)

/-- Model of an IEEE double as passed for `timestamp_ms`: NaN, an
infinity, or a finite value.  Every finite double is a rational; the
cast semantics below only compares and floors, so the rational model
is exact on doubles. -/
inductive F64
  | nan
  | negInf
  | posInf
  | finite (q : ℚ)
deriving DecidableEq

/-- Semantics of Rust's saturating float-to-integer cast
`timestamp_ms as u64` (`lib.rs` line 47): NaN and negative values give
0, values at or above `2 ^ 64` give `u64::MAX`, and finite values in
range truncate toward zero. -/
def f64AsU64 : F64 → ℕ
  | .nan => 0
  | .negInf => 0
  | .posInf => 2 ^ 64 - 1
  | .finite q =>
    if q < 0 then 0
    else if (2 ^ 64 : ℚ) ≤ q then 2 ^ 64 - 1
    else q.floor.toNat

/-- `new_v0` (`lib.rs` lines 35-49): validate the name, require exactly
16 hex characters of randomness, cast the timestamp with `as u64`, and
render the constructed V0 TNID. -/
def wasm_new_v0 (name : List Char) (timestamp_ms : F64) (random_hex : List Char) :
    Except JsError (List Char) :=
  match NameStr.new name with
  | .error e => .error (.fromName e)
  | .ok n =>
    if random_hex.length ≠ 16 then .error .randomHexLength
    else
      match u64FromHexStr random_hex with
      | none => .error .randomHexDigit
      | some r =>
        .ok (DynamicTnid.new_v0_with_parts n (f64AsU64 timestamp_ms) r).render

/-! Section: Helper lemmas: positional numerals -/

theorem length_natToDigits (b w v : ℕ) : (natToDigits b w v).length = w := by
  induction w generalizing v with
  | zero => rfl
  | succ w ih => simp [natToDigits, ih]

theorem mem_natToDigits_lt (b w v : ℕ) (hb : 0 < b) :
    ∀ d ∈ natToDigits b w v, d < b := by
  induction w generalizing v with
  | zero => simp [natToDigits]
  | succ w ih =>
    intro d hd
    simp only [natToDigits, List.mem_append, List.mem_singleton] at hd
    rcases hd with hd | hd
    · exact ih _ d hd
    · subst hd; exact Nat.mod_lt _ hb

theorem digitsToNat_append_single (b : ℕ) (ds : List ℕ) (d : ℕ) :
    digitsToNat b (ds ++ [d]) = digitsToNat b ds * b + d := by
  simp [digitsToNat, List.foldl_append]

theorem digitsToNat_natToDigits (b w v : ℕ) (hb : 0 < b) (hv : v < b ^ w) :
    digitsToNat b (natToDigits b w v) = v := by
  induction w generalizing v with
  | zero =>
    have hv0 : v = 0 := by simpa using hv
    simp [natToDigits, digitsToNat, hv0]
  | succ w ih =>
    rw [natToDigits, digitsToNat_append_single, ih (v / b) (by
      rw [Nat.div_lt_iff_lt_mul hb]
      calc v < b ^ (w + 1) := hv
      _ = b ^ w * b := by ring)]
    rw [Nat.mul_comm]
    exact Nat.div_add_mod v b

theorem natToDigits_digitsToNat (b : ℕ) (hb : 0 < b) (ds : List ℕ)
    (hd : ∀ d ∈ ds, d < b) :
    natToDigits b ds.length (digitsToNat b ds) = ds := by
  induction ds using List.reverseRecOn with
  | nil => rfl
  | append_singleton ds d ih =>
    have hdb : d < b := hd d (by simp)
    rw [digitsToNat_append_single]
    have hlen : (ds ++ [d]).length = ds.length + 1 := by simp
    rw [hlen, natToDigits]
    have h1 : (digitsToNat b ds * b + d) / b = digitsToNat b ds := by
      rw [Nat.mul_comm, Nat.mul_add_div hb, Nat.div_eq_of_lt hdb, Nat.add_zero]
    have h2 : (digitsToNat b ds * b + d) % b = d := by
      rw [Nat.mul_comm, Nat.mul_add_mod, Nat.mod_eq_of_lt hdb]
    rw [h1, h2, ih (fun x hx => hd x (by simp [hx]))]

theorem digitsToNat_lt (b : ℕ) (ds : List ℕ)
    (hd : ∀ d ∈ ds, d < b) : digitsToNat b ds < b ^ ds.length := by
  induction ds using List.reverseRecOn with
  | nil => simp [digitsToNat]
  | append_singleton ds d ih =>
    have hdb : d < b := hd d (by simp)
    have hds := ih (fun x hx => hd x (by simp [hx]))
    rw [digitsToNat_append_single]
    have : (ds ++ [d]).length = ds.length + 1 := by simp
    rw [this, pow_succ]
    calc digitsToNat b ds * b + d < digitsToNat b ds * b + b := by omega
    _ = (digitsToNat b ds + 1) * b := by ring
    _ ≤ b ^ ds.length * b := by
      have : digitsToNat b ds + 1 ≤ b ^ ds.length := hds
      exact Nat.mul_le_mul_right b this

/-! Section: Helper lemmas: characters -/

theorem char_toNat_inj {c c' : Char} (h : c.toNat = c'.toNat) : c = c' :=
  Char.eq_of_val_eq (UInt32.ext h)

theorem char_toNat_ofNat (n : ℕ) (h : n < 55296) : (Char.ofNat n).toNat = n := by
  have hv : n.isValidChar := Or.inl h
  unfold Char.ofNat
  rw [dif_pos hv]
  simp [Char.ofNatAux, Char.toNat, UInt32.toNat, UInt32.ofNat',
    Nat.mod_eq_of_lt (by omega : n < 4294967296)]

theorem charVal32_digitChar32 : ∀ d < 32, charVal32 (digitChar32 d) = some d := by decide

theorem digitChar32_charVal32 {c : Char} {d : ℕ} (h : charVal32 c = some d) :
    digitChar32 d = c := by
  unfold charVal32 at h
  split at h
  · simp only [Option.some_inj] at h
    subst h
    apply char_toNat_inj
    unfold digitChar32
    rw [if_pos (by omega), char_toNat_ofNat _ (by omega)]
    omega
  · split at h
    · simp only [Option.some_inj] at h
      subst h
      apply char_toNat_inj
      unfold digitChar32
      rw [if_neg (by omega), char_toNat_ofNat _ (by omega)]
      omega
    · exact absurd h (by simp)

theorem charsToDigits32_map (ds : List ℕ) (hd : ∀ d ∈ ds, d < 32) :
    charsToDigits32 (ds.map digitChar32) = some ds := by
  induction ds with
  | nil => rfl
  | cons d ds ih =>
    have h1 : charVal32 (digitChar32 d) = some d :=
      charVal32_digitChar32 d (hd d (by simp))
    have h2 := ih (fun x hx => hd x (by simp [hx]))
    simp [charsToDigits32, h1, h2]

theorem charsToDigits32_inv {cs : List Char} {ds : List ℕ}
    (h : charsToDigits32 cs = some ds) :
    cs = ds.map digitChar32 ∧ ds.length = cs.length := by
  induction cs generalizing ds with
  | nil =>
    simp only [charsToDigits32, Option.some_inj] at h
    subst h; simp
  | cons c cs ih =>
    unfold charsToDigits32 at h
    rcases h1 : charVal32 c with _ | d0
    · rw [h1] at h; exact absurd h (by simp)
    · rw [h1] at h
      rcases h2 : charsToDigits32 cs with _ | ds0
      · rw [h2] at h; exact absurd h (by simp)
      · rw [h2] at h
        simp only [Option.some_inj] at h
        subst h
        obtain ⟨hcs, hlen⟩ := ih h2
        refine ⟨?_, by simp [hlen]⟩
        simp [List.map, digitChar32_charVal32 h1, ← hcs]

theorem charsToDigits32_mem_lt {cs : List Char} {ds : List ℕ}
    (h : charsToDigits32 cs = some ds) : ∀ d ∈ ds, d < 32 := by
  induction cs generalizing ds with
  | nil =>
    simp only [charsToDigits32, Option.some_inj] at h
    subst h; simp
  | cons c cs ih =>
    unfold charsToDigits32 at h
    rcases h1 : charVal32 c with _ | d0
    · rw [h1] at h; exact absurd h (by simp)
    · rw [h1] at h
      rcases h2 : charsToDigits32 cs with _ | ds0
      · rw [h2] at h; exact absurd h (by simp)
      · rw [h2] at h
        simp only [Option.some_inj] at h
        subst h
        intro d hd
        rcases List.mem_cons.mp hd with hd | hd
        · subst hd
          unfold charVal32 at h1
          split at h1
          · simp only [Option.some_inj] at h1; omega
          · split at h1
            · simp only [Option.some_inj] at h1; omega
            · exact absurd h1 (by simp)
        · exact ih h2 d hd

theorem hexVal_hexDigitChar (cs : Case) : ∀ d < 16, hexVal (hexDigitChar cs d) = some d := by
  cases cs <;> decide

theorem charsToHexDigits_map (cs : Case) (ds : List ℕ) (hd : ∀ d ∈ ds, d < 16) :
    charsToHexDigits (ds.map (hexDigitChar cs)) = some ds := by
  induction ds with
  | nil => rfl
  | cons d ds ih =>
    have h1 : hexVal (hexDigitChar cs d) = some d :=
      hexVal_hexDigitChar cs d (hd d (by simp))
    have h2 := ih (fun x hx => hd x (by simp [hx]))
    simp [charsToHexDigits, h1, h2]

theorem charsToHexDigits_length {cs : List Char} {ds : List ℕ}
    (h : charsToHexDigits cs = some ds) : ds.length = cs.length := by
  induction cs generalizing ds with
  | nil =>
    simp only [charsToHexDigits, Option.some_inj] at h
    subst h; rfl
  | cons c cs ih =>
    unfold charsToHexDigits at h
    rcases h1 : hexVal c with _ | d0
    · rw [h1] at h; exact absurd h (by simp)
    · rw [h1] at h
      rcases h2 : charsToHexDigits cs with _ | ds0
      · rw [h2] at h; exact absurd h (by simp)
      · rw [h2] at h
        simp only [Option.some_inj] at h
        subst h
        simp [ih h2]

theorem charsToHexDigits_mem_lt {cs : List Char} {ds : List ℕ}
    (h : charsToHexDigits cs = some ds) : ∀ d ∈ ds, d < 16 := by
  induction cs generalizing ds with
  | nil =>
    simp only [charsToHexDigits, Option.some_inj] at h
    subst h; simp
  | cons c cs ih =>
    unfold charsToHexDigits at h
    rcases h1 : hexVal c with _ | d0
    · rw [h1] at h; exact absurd h (by simp)
    · rw [h1] at h
      rcases h2 : charsToHexDigits cs with _ | ds0
      · rw [h2] at h; exact absurd h (by simp)
      · rw [h2] at h
        simp only [Option.some_inj] at h
        subst h
        intro d hd
        rcases List.mem_cons.mp hd with hd | hd
        · subst hd
          unfold hexVal at h1
          split at h1
          · simp only [Option.some_inj] at h1; omega
          · split at h1
            · simp only [Option.some_inj] at h1; omega
            · split at h1
              · simp only [Option.some_inj] at h1; omega
              · exact absurd h1 (by simp)
        · exact ih h2 d hd

theorem charsToHexDigits_isSome_iff (cs : List Char) :
    (charsToHexDigits cs).isSome = true ↔ ∀ c ∈ cs, (hexVal c).isSome = true := by
  induction cs with
  | nil => simp [charsToHexDigits]
  | cons c cs ih =>
    unfold charsToHexDigits
    constructor
    · intro h
      rcases h1 : hexVal c with _ | d0
      · rw [h1] at h; simp at h
      · rcases h2 : charsToHexDigits cs with _ | ds0
        · rw [h1, h2] at h; simp at h
        · intro x hx
          rcases List.mem_cons.mp hx with hx | hx
          · subst hx; simp [h1]
          · exact (ih.mp (by simp [h2])) x hx
    · intro h
      have hc : (hexVal c).isSome = true := h c (by simp)
      rcases h1 : hexVal c with _ | d0
      · rw [h1] at hc; simp at hc
      · have hcs : (charsToHexDigits cs).isSome = true :=
          ih.mpr (fun x hx => h x (by simp [hx]))
        rcases h2 : charsToHexDigits cs with _ | ds0
        · rw [h2] at hcs; simp at hcs
        · simp [h1, h2]

/-! Section: Helper lemmas: names and the native string form -/

theorem NameStr.new_ok {s n : List Char} (h : NameStr.new s = .ok n) :
    n = s ∧ 0 < s.length ∧ s.length ≤ 4 ∧ ∀ c ∈ s, allowedNameChar c = true := by
  unfold NameStr.new at h
  split at h
  · exact absurd h (by simp)
  · split at h
    · simp only [Except.ok.injEq] at h
      refine ⟨h.symm, by omega, by omega, ?_⟩
      intro c hc
      exact List.all_eq_true.mp (by assumption) c hc
    · exact absurd h (by simp)

theorem NameStr.new_self {s : List Char} (h1 : 0 < s.length) (h2 : s.length ≤ 4)
    (h3 : ∀ c ∈ s, allowedNameChar c = true) : NameStr.new s = .ok s := by
  unfold NameStr.new
  rw [if_neg (by omega), if_pos (List.all_eq_true.mpr h3)]

theorem allowedNameChar_ne_underscore {c : Char} (h : allowedNameChar c = true) :
    c ≠ '_' := by
  intro hc
  subst hc
  simp [allowedNameChar] at h

theorem takeWhile_name_append {n t : List Char} (h : ∀ c ∈ n, c ≠ '_') :
    (n ++ '_' :: t).takeWhile (fun c => c != '_') = n ∧
    (n ++ '_' :: t).dropWhile (fun c => c != '_') = '_' :: t := by
  induction n with
  | nil => simp [List.takeWhile, List.dropWhile]
  | cons c cs ih =>
    have hc : c ≠ '_' := h c (by simp)
    have ht := ih (fun x hx => h x (by simp [hx]))
    simp only [List.cons_append, List.takeWhile_cons, List.dropWhile_cons]
    rw [if_pos (by simpa using hc), if_pos (by simpa using hc)]
    exact ⟨by rw [ht.1], ht.2⟩

theorem variantOfChar_variantChar (v : TnidVariant) :
    variantOfChar (variantChar v) = some v := by
  cases v <;> rfl

theorem variantChar_variantOfChar {c : Char} {v : TnidVariant}
    (h : variantOfChar c = some v) : variantChar v = c := by
  unfold variantOfChar at h
  split at h
  · simp only [Option.some_inj] at h; subst h; subst (by assumption : c = '0'); rfl
  · split at h
    · simp only [Option.some_inj] at h; subst h; subst (by assumption : c = '1'); rfl
    · split at h
      · simp only [Option.some_inj] at h; subst h; subst (by assumption : c = '2'); rfl
      · split at h
        · simp only [Option.some_inj] at h; subst h; subst (by assumption : c = '3'); rfl
        · exact absurd h (by simp)

/-! Section: Helper lemmas: the UUID string form -/

theorem drop_len_append_cons {l₁ l₂ : List Char} {c : Char} {n : ℕ} (h : l₁.length = n) :
    (l₁ ++ c :: l₂).drop n = c :: l₂ := by
  rw [← h, List.drop_left]

theorem take_len_append_cons {l₁ l₂ : List Char} {c : Char} {n : ℕ} (h : l₁.length = n) :
    (l₁ ++ c :: l₂).take n = l₁ := by
  rw [← h, List.take_left]

theorem splitUuid_insertUuidDashes (hx : List Char) (h : hx.length = 32) :
    splitUuid (insertUuidDashes hx) = some hx := by
  have hA : (hx.take 8).length = 8 := by simp [h]
  have hB : ((hx.drop 8).take 4).length = 4 := by simp [h]
  have hC : (((hx.drop 8).drop 4).take 4).length = 4 := by simp [h]
  have hD : ((((hx.drop 8).drop 4).drop 4).take 4).length = 4 := by simp [h]
  unfold splitUuid insertUuidDashes
  rw [drop_len_append_cons hA]
  simp only [expectDash, Option.some_bind]
  rw [drop_len_append_cons hB]
  simp only [expectDash, Option.some_bind]
  rw [drop_len_append_cons hC]
  simp only [expectDash, Option.some_bind]
  rw [drop_len_append_cons hD]
  simp only [expectDash, Option.some_bind]
  rw [if_pos (by simp [h])]
  rw [take_len_append_cons hA, take_len_append_cons hB, take_len_append_cons hC,
    take_len_append_cons hD]
  simp only [List.drop_drop]
  norm_num
  have e1 : List.take 4 (List.drop 16 hx) ++ List.drop 20 hx = List.drop 16 hx := by
    have h20 : List.drop 20 hx = List.drop 4 (List.drop 16 hx) := by simp [List.drop_drop]
    rw [h20, List.take_append_drop]
  have e2 : List.take 4 (List.drop 12 hx) ++ List.drop 16 hx = List.drop 12 hx := by
    have h16 : List.drop 16 hx = List.drop 4 (List.drop 12 hx) := by simp [List.drop_drop]
    rw [h16, List.take_append_drop]
  have e3 : List.take 4 (List.drop 8 hx) ++ List.drop 12 hx = List.drop 8 hx := by
    have h12 : List.drop 12 hx = List.drop 4 (List.drop 8 hx) := by simp [List.drop_drop]
    rw [h12, List.take_append_drop]
  rw [e1, e2, e3, List.take_append_drop]

theorem length_uuidHexChars (p : ℕ) (cs : Case) : (uuidHexChars p cs).length = 32 := by
  simp [uuidHexChars, length_natToDigits]

/-! Section: Helper lemmas: variants and the payload layout -/

theorem variantOfTag_v0 {x : ℕ} (h : variantOfTag x = .V0) : x = 0 := by
  unfold variantOfTag at h
  split at h
  · assumption
  · split at h
    · exact absurd h (by simp)
    · split at h
      · exact absurd h (by simp)
      · exact absurd h (by simp)

theorem variantOfTag_v1 {x : ℕ} (h : variantOfTag x = .V1) : x = 1 := by
  unfold variantOfTag at h
  split at h
  · exact absurd h (by simp)
  · split at h
    · assumption
    · split at h
      · exact absurd h (by simp)
      · exact absurd h (by simp)

theorem variant_v0_payload_lt {t : DynamicTnid} (h : t.variant = .V0) :
    t.payload < 2 ^ 126 := by
  have := variantOfTag_v0 h
  unfold tagBits at this
  omega

theorem permuteFieldBits_lt (k x : ℕ) : permuteFieldBits k x < 2 ^ 126 :=
  Nat.xor_lt_two_pow (Nat.mod_lt _ (by positivity)) (Nat.mod_lt _ (by positivity))

theorem permuteFieldBits_involutive (k x : ℕ) (hx : x < 2 ^ 126) :
    permuteFieldBits k (permuteFieldBits k x) = x := by
  show (permuteFieldBits k x % 2 ^ 126) ^^^ (k % 2 ^ 126) = x
  rw [Nat.mod_eq_of_lt (permuteFieldBits_lt k x)]
  show ((x % 2 ^ 126) ^^^ (k % 2 ^ 126)) ^^^ (k % 2 ^ 126) = x
  rw [Nat.xor_assoc, Nat.xor_self, Nat.xor_zero, Nat.mod_eq_of_lt hx]

/-! Section: Claim theorems -/

/-- C1: For every TNID `t` whose variant is V0 and every 128-bit
key `k`, `decrypt_v1_to_v0 (encrypt_v0_to_v1 t k) k` returns a TNID
equal to `t` bit-for-bit in all fields, with the name carried through
unchanged and the intermediate encrypted value tagged V1. -/
theorem c1_encrypt_decrypt_roundtrip (t : DynamicTnid) (k : ℕ)
    (hv : t.variant = .V0) (hk : k < 2 ^ 128) :
    ∃ e, t.encrypt_v0_to_v1 k = .ok e ∧ e.variant = .V1 ∧ e.name = t.name ∧
      e.decrypt_v1_to_v0 k = .ok t := by
  obtain ⟨nm, p⟩ := t
  have hp : p < 2 ^ 126 := variant_v0_payload_lt hv
  refine ⟨(⟨nm, tagOfVariant .V1 * 2 ^ 126 + permuteFieldBits k (fieldBits p)⟩ : DynamicTnid),
    ?_, ?_, rfl, ?_⟩
  · unfold DynamicTnid.encrypt_v0_to_v1
    rw [if_pos hv]
  · show variantOfTag ((1 * 2 ^ 126 + permuteFieldBits k (fieldBits p)) / 2 ^ 126) = .V1
    have hlt := permuteFieldBits_lt k (fieldBits p)
    have : (1 * 2 ^ 126 + permuteFieldBits k (fieldBits p)) / 2 ^ 126 = 1 := by omega
    rw [this]
    rfl
  · unfold DynamicTnid.decrypt_v1_to_v0
    have hlt := permuteFieldBits_lt k (fieldBits p)
    have hvar : (⟨nm, tagOfVariant .V1 * 2 ^ 126 + permuteFieldBits k (fieldBits p)⟩ :
        DynamicTnid).variant = .V1 := by
      show variantOfTag ((1 * 2 ^ 126 + permuteFieldBits k (fieldBits p)) / 2 ^ 126) = .V1
      have : (1 * 2 ^ 126 + permuteFieldBits k (fieldBits p)) / 2 ^ 126 = 1 := by omega
      rw [this]
      rfl
    rw [if_pos hvar]
    have hfb : fieldBits (tagOfVariant .V1 * 2 ^ 126 + permuteFieldBits k (fieldBits p)) =
        permuteFieldBits k (fieldBits p) := by
      show (1 * 2 ^ 126 + permuteFieldBits k (fieldBits p)) % 2 ^ 126 =
        permuteFieldBits k (fieldBits p)
      omega
    rw [hfb]
    have hfp : fieldBits p = p := Nat.mod_eq_of_lt hp
    rw [hfp] at *
    rw [permuteFieldBits_involutive k p hp]
    show (Except.ok ⟨nm, 0 * 2 ^ 126 + p⟩ : Except TransformError DynamicTnid) =
      Except.ok ⟨nm, p⟩
    norm_num

/-- Witness for C1 at a concrete V0 TNID and key. -/
theorem c1_witness :
    (⟨['u'], 5⟩ : DynamicTnid).variant = .V0 ∧ (3 : ℕ) < 2 ^ 128 ∧
    ∃ e, (⟨['u'], 5⟩ : DynamicTnid).encrypt_v0_to_v1 3 = .ok e ∧ e.variant = .V1 ∧
      e.name = (⟨['u'], 5⟩ : DynamicTnid).name ∧ e.decrypt_v1_to_v0 3 = .ok ⟨['u'], 5⟩ :=
  ⟨by decide, by decide, c1_encrypt_decrypt_roundtrip ⟨['u'], 5⟩ 3 (by decide) (by decide)⟩

/-- C5: `encrypt_v0_to_v1` fails with `WrongVariant` for every
TNID whose variant is not V0, and `decrypt_v1_to_v0` fails with
`WrongVariant` for every TNID whose variant is not V1; the `Except`
value is the only outcome. -/
theorem c5_wrong_variant (t : DynamicTnid) (k : ℕ) :
    (t.variant ≠ .V0 → t.encrypt_v0_to_v1 k = .error .WrongVariant) ∧
    (t.variant ≠ .V1 → t.decrypt_v1_to_v0 k = .error .WrongVariant) := by
  constructor
  · intro h
    unfold DynamicTnid.encrypt_v0_to_v1
    rw [if_neg h]
  · intro h
    unfold DynamicTnid.decrypt_v1_to_v0
    rw [if_neg h]

/-- Witness for C5: a V1 TNID rejected by encrypt, a V0 TNID rejected
by decrypt. -/
theorem c5_witness :
    (⟨['u'], 2 ^ 126⟩ : DynamicTnid).encrypt_v0_to_v1 7 = .error .WrongVariant ∧
    (⟨['u'], 5⟩ : DynamicTnid).decrypt_v1_to_v0 7 = .error .WrongVariant :=
  ⟨(c5_wrong_variant ⟨['u'], 2 ^ 126⟩ 7).1 (by decide),
   (c5_wrong_variant ⟨['u'], 5⟩ 7).2 (by decide)⟩

/-- C4 counterexample: The claim demands a bit-exact round trip
for *every* 64-bit timestamp, but the fixed tag bits of the 128-bit
payload leave fewer than 64+64 free bits, so some timestamp bits are
necessarily sacrificed; under this development's documented bit map the
timestamps at or above `2 ^ 62` are truncated. -/
theorem c4_counterexample :
    decode (encode_v0 (2 ^ 62) 0) ≠ (TnidVariant.V0, [2 ^ 62, 0]) := by decide

/-- C4 amended: For every timestamp representable in the layout's
timestamp field (below `2 ^ 62` under the documented bit map) and every
64-bit random value, decoding the payload produced by `encode_v0`
yields exactly `(V0, t, r)`, bit-exactly. -/
theorem c4_encode_decode_roundtrip (t r : ℕ) (ht : t < 2 ^ 62) (hr : r < 2 ^ 64) :
    decode (encode_v0 t r) = (TnidVariant.V0, [t, r]) := by
  have hp : encode_v0 t r = t * 2 ^ 64 + r := by
    unfold encode_v0 tagOfVariant
    rw [Nat.mod_eq_of_lt ht, Nat.mod_eq_of_lt hr]
    ring
  have htag : variantOfPayload (encode_v0 t r) = TnidVariant.V0 := by
    unfold variantOfPayload tagBits
    rw [hp, Nat.div_eq_of_lt (by omega)]
    rfl
  unfold decode
  rw [htag]
  unfold decode_v0_timestamp decode_v0_random
  rw [hp]
  have h1 : t * 2 ^ 64 + r ≥ 0 := by omega
  have h2 : (t * 2 ^ 64 + r) / 2 ^ 64 % 2 ^ 62 = t := by omega
  have h3 : (t * 2 ^ 64 + r) % 2 ^ 64 = r := by omega
  rw [h2, h3]

/-- Witness for C4 (amended) at the spec's concrete scenario values. -/
theorem c4_witness :
    (1700000000000 : ℕ) < 2 ^ 62 ∧ (81985529216486895 : ℕ) < 2 ^ 64 ∧
    decode (encode_v0 1700000000000 81985529216486895) =
      (TnidVariant.V0, [1700000000000, 81985529216486895]) :=
  ⟨by decide, by decide,
   c4_encode_decode_roundtrip 1700000000000 81985529216486895 (by decide) (by decide)⟩

/-- C2: For every valid name `n`, variant `v` and 128-bit payload
`p` whose tag bits agree with `v` (the TNID invariant), parsing the
native string produced by the text codec recovers exactly the triple
`(n, v, p)`. -/
theorem c2_parse_tnid_string_roundtrip (n : List Char) (v : TnidVariant) (p : ℕ)
    (hn : NameStr.new n = .ok n) (hp : p < 2 ^ 128) (hv : variantOfPayload p = v) :
    parse_tnid_string (to_tnid_string n v p) = .ok (n, v, p) := by
  obtain ⟨-, hl1, hl4, hchars⟩ := NameStr.new_ok hn
  have hne : ∀ c ∈ n, c ≠ '_' := fun c hc => allowedNameChar_ne_underscore (hchars c hc)
  have htd := takeWhile_name_append
    (t := variantChar v :: (natToDigits 32 26 p).map digitChar32) hne
  have hdig : ∀ d ∈ natToDigits 32 26 p, d < 32 := mem_natToDigits_lt 32 26 p (by norm_num)
  have hmap : charsToDigits32 ((natToDigits 32 26 p).map digitChar32) =
      some (natToDigits 32 26 p) := charsToDigits32_map _ hdig
  have hlen : ((natToDigits 32 26 p).map digitChar32).length = 26 := by
    simp [length_natToDigits]
  have hdec : digitsToNat 32 (natToDigits 32 26 p) = p :=
    digitsToNat_natToDigits 32 26 p (by norm_num) (lt_trans hp (by norm_num))
  unfold parse_tnid_string to_tnid_string
  rw [htd.1, htd.2, hn]
  simp only [variantOfChar_variantChar, hlen, hmap, hdec, hp, hv, if_true]

/-- Witness for C2 at a concrete valid triple. -/
theorem c2_witness :
    NameStr.new ['u', 's', 'r'] = .ok ['u', 's', 'r'] ∧ (5 : ℕ) < 2 ^ 128 ∧
    variantOfPayload 5 = TnidVariant.V0 ∧
    parse_tnid_string (to_tnid_string ['u', 's', 'r'] TnidVariant.V0 5) =
      .ok (['u', 's', 'r'], TnidVariant.V0, 5) :=
  ⟨by rfl, by decide, by decide,
   c2_parse_tnid_string_roundtrip ['u', 's', 'r'] TnidVariant.V0 5
     (by rfl) (by decide) (by decide)⟩

/-- Every string accepted by `parse_tnid_string` is canonical:
re-rendering the parsed triple reproduces the input character for
character. -/
theorem parse_tnid_string_canonical (s n : List Char) (v : TnidVariant) (p : ℕ)
    (h : parse_tnid_string s = .ok (n, v, p)) :
    to_tnid_string n v p = s := by
  have hsplit : s.takeWhile (fun c => c != '_') ++ s.dropWhile (fun c => c != '_') = s :=
    List.takeWhile_append_dropWhile _ _
  unfold parse_tnid_string at h
  split at h
  · exact absurd h (by simp)
  · rename_i n' hname
    split at h
    · rename_i vc rest hdrop
      split at h
      · exact absurd h (by simp)
      · rename_i v' hvc
        split at h
        · rename_i hlen26
          split at h
          · exact absurd h (by simp)
          · rename_i ds hds
            split at h
            · rename_i hbound
              split at h
              · simp only [Except.ok.injEq, Prod.mk.injEq] at h
                obtain ⟨hn_eq, hv_eq, hp_eq⟩ := h
                obtain ⟨hn', -, -, -⟩ := NameStr.new_ok hname
                obtain ⟨hrest, hdslen⟩ := charsToDigits32_inv hds
                have hds32 : ∀ d ∈ ds, d < 32 := charsToDigits32_mem_lt hds
                have hdslen26 : ds.length = 26 := by rw [hdslen]; exact hlen26
                have hnd : natToDigits 32 26 (digitsToNat 32 ds) = ds := by
                  rw [← hdslen26]
                  exact natToDigits_digitsToNat 32 (by norm_num) ds hds32
                rw [← hn_eq, ← hv_eq, ← hp_eq]
                unfold to_tnid_string
                rw [hnd, ← hrest, variantChar_variantOfChar hvc, hn', ← hdrop]
                exact hsplit
              · exact absurd h (by simp)
            · exact absurd h (by simp)
        · exact absurd h (by simp)
    · exact absurd h (by simp)

/-- C9: For every input string `s` accepted by the wrapper's
`parse` (`lib.rs` lines 16-19), the string it returns equals `s`
character for character: the native TNID string form is canonical. -/
theorem c9_wasm_parse_canonical (s out : List Char) (h : wasm_parse s = .ok out) :
    out = s := by
  unfold wasm_parse at h
  split at h
  · exact absurd h (by simp)
  · rename_i n v p heq
    simp only [Except.ok.injEq] at h
    rw [← h]
    exact parse_tnid_string_canonical s n v p heq

/-- Witness for C9 at a concrete accepted string. -/
theorem c9_witness :
    wasm_parse (to_tnid_string ['u'] TnidVariant.V0 3) =
      .ok (to_tnid_string ['u'] TnidVariant.V0 3) ∧
    to_tnid_string ['u'] TnidVariant.V0 3 = to_tnid_string ['u'] TnidVariant.V0 3 :=
  ⟨by rfl, c9_wasm_parse_canonical _ _ (by rfl)⟩

/-- The hex alphabet of the requested letter case. -/
def isHexCharOfCase (cs : Case) (ch : Char) : Bool :=
  match cs with
  | .Lower => (48 ≤ ch.toNat && ch.toNat ≤ 57) || (97 ≤ ch.toNat && ch.toNat ≤ 102)
  | .Upper => (48 ≤ ch.toNat && ch.toNat ≤ 57) || (65 ≤ ch.toNat && ch.toNat ≤ 70)

theorem isHexCharOfCase_hexDigitChar (cs : Case) :
    ∀ d < 16, isHexCharOfCase cs (hexDigitChar cs d) = true := by
  cases cs <;> decide

theorem mem_uuidHexChars (p : ℕ) (cs : Case) :
    ∀ ch ∈ uuidHexChars p cs, isHexCharOfCase cs ch = true := by
  intro ch hch
  obtain ⟨d, hd, rfl⟩ := List.mem_map.mp hch
  exact isHexCharOfCase_hexDigitChar cs d (mem_natToDigits_lt 16 32 p (by norm_num) d hd)

theorem take_drop_recombine (hx : List Char) :
    hx.take 8 ++ ((hx.drop 8).take 4 ++ (((hx.drop 8).drop 4).take 4 ++
      ((((hx.drop 8).drop 4).drop 4).take 4 ++ ((((hx.drop 8).drop 4).drop 4).drop 4)))) =
      hx := by
  simp only [List.drop_drop]
  norm_num
  have e1 : List.take 4 (List.drop 16 hx) ++ List.drop 20 hx = List.drop 16 hx := by
    have h20 : List.drop 20 hx = List.drop 4 (List.drop 16 hx) := by simp [List.drop_drop]
    rw [h20, List.take_append_drop]
  have e2 : List.take 4 (List.drop 12 hx) ++ List.drop 16 hx = List.drop 12 hx := by
    have h16 : List.drop 16 hx = List.drop 4 (List.drop 12 hx) := by simp [List.drop_drop]
    rw [h16, List.take_append_drop]
  have e3 : List.take 4 (List.drop 8 hx) ++ List.drop 12 hx = List.drop 8 hx := by
    have h12 : List.drop 12 hx = List.drop 4 (List.drop 8 hx) := by simp [List.drop_drop]
    rw [h12, List.take_append_drop]
  rw [e1, e2, e3, List.take_append_drop]

/-- C7: For every payload and either letter case, `to_uuid_string`
renders a standard 8-4-4-4-12 hyphenated hex string whose 32 hex
characters are all in the requested case (so the caller can obtain an
uppercase rendering by requesting `Upper`); the name does not appear in
the output. -/
theorem c7_to_uuid_string_format (p : ℕ) (cs : Case) :
    ∃ a b c d e : List Char,
      to_uuid_string p cs =
        a ++ ('-' :: (b ++ ('-' :: (c ++ ('-' :: (d ++ ('-' :: e))))))) ∧
      a.length = 8 ∧ b.length = 4 ∧ c.length = 4 ∧ d.length = 4 ∧ e.length = 12 ∧
      (to_uuid_string p cs).length = 36 ∧
      ∀ ch ∈ a ++ (b ++ (c ++ (d ++ e))), isHexCharOfCase cs ch = true := by
  have hlen : (uuidHexChars p cs).length = 32 := length_uuidHexChars p cs
  refine ⟨(uuidHexChars p cs).take 8, ((uuidHexChars p cs).drop 8).take 4,
    (((uuidHexChars p cs).drop 8).drop 4).take 4,
    ((((uuidHexChars p cs).drop 8).drop 4).drop 4).take 4,
    ((((uuidHexChars p cs).drop 8).drop 4).drop 4).drop 4,
    rfl, ?_, ?_, ?_, ?_, ?_, ?_, ?_⟩
  · simp [hlen]
  · simp [hlen]
  · simp [hlen]
  · simp [hlen]
  · simp [hlen]
  · unfold to_uuid_string insertUuidDashes
    simp [hlen]
  · intro ch hch
    rw [take_drop_recombine] at hch
    exact mem_uuidHexChars p cs ch hch

/-- C3: For every name, 128-bit payload and letter case, parsing
the UUID string rendered by `to_uuid_string` succeeds and yields the
supplied name paired with the decoded variant and the exact payload;
both renderings (upper and lower) parse, so the parse is
case-insensitive on the hex digits. -/
theorem c3_parse_uuid_roundtrip (n : List Char) (p : ℕ) (cs : Case) (hp : p < 2 ^ 128) :
    parse_uuid_string n (to_uuid_string p cs) = .ok (n, variantOfPayload p, p) := by
  have hdig : ∀ d ∈ natToDigits 16 32 p, d < 16 := mem_natToDigits_lt 16 32 p (by norm_num)
  have hsplit : splitUuid (to_uuid_string p cs) = some (uuidHexChars p cs) := by
    unfold to_uuid_string
    exact splitUuid_insertUuidDashes _ (length_uuidHexChars p cs)
  have hmap : charsToHexDigits (uuidHexChars p cs) = some (natToDigits 16 32 p) :=
    charsToHexDigits_map cs _ hdig
  have hdec : digitsToNat 16 (natToDigits 16 32 p) = p :=
    digitsToNat_natToDigits 16 32 p (by norm_num)
      (by calc p < 2 ^ 128 := hp
          _ = 16 ^ 32 := by norm_num)
  unfold parse_uuid_string
  simp only [hsplit, hmap, hdec]

/-- Witness for C3 at a concrete payload, requesting the uppercase
rendering. -/
theorem c3_witness :
    (5 : ℕ) < 2 ^ 128 ∧
    parse_uuid_string ['u'] (to_uuid_string 5 Case.Upper) =
      .ok (['u'], variantOfPayload 5, 5) :=
  ⟨by decide, c3_parse_uuid_roundtrip ['u'] 5 Case.Upper (by decide)⟩

/-- C6: In the spec's model of `parse_uuid_string`, the separately
supplied name is carried into the result: evaluated at the spec's
example UUID text with name `usr`, the parse succeeds and returns that
name with the decoded variant and payload.  (The wrapper in `lib.rs`
lines 21-26 omits the name parameter its own doc comment promises; see
the results record.) -/
theorem c6_parse_uuid_pairs_name :
    parse_uuid_string ['u', 's', 'r']
      ['5', '5', '0', 'e', '8', '4', '0', '0', '-', 'e', '2', '9', 'b', '-',
       '4', '1', 'd', '4', '-', 'a', '7', '1', '6', '-', '4', '4', '6', '6',
       '5', '5', '4', '4', '0', '0', '0', '0'] =
      .ok (['u', 's', 'r'], TnidVariant.V1, 0x550e8400e29b41d4a716446655440000) := by
  rfl

/-- C8: Key construction succeeds exactly when the input denotes
128 bits — a hex string of exactly 32 hex characters, or exactly 16 raw
bytes — and fails with `InvalidKeyLength` for every input of any other
length. -/
theorem c8_key_construction (s : List Char) (bs : List ℕ) :
    ((∃ k, EncryptionKey.from_hex s = .ok k) ↔
      (s.length = 32 ∧ ∀ c ∈ s, (hexVal c).isSome = true)) ∧
    (s.length ≠ 32 → EncryptionKey.from_hex s = .error .InvalidKeyLength) ∧
    ((∃ k, EncryptionKey.from_bytes bs = .ok k) ↔ bs.length = 16) ∧
    (bs.length ≠ 16 → EncryptionKey.from_bytes bs = .error .InvalidKeyLength) := by
  refine ⟨⟨?_, ?_⟩, ?_, ⟨?_, ?_⟩, ?_⟩
  · rintro ⟨k, hk⟩
    unfold EncryptionKey.from_hex at hk
    split at hk
    · rename_i hlen
      rcases h2 : charsToHexDigits s with _ | ds
      · rw [h2] at hk; exact absurd hk (by simp)
      · exact ⟨hlen, (charsToHexDigits_isSome_iff s).mp (by simp [h2])⟩
    · exact absurd hk (by simp)
  · rintro ⟨hlen, hhex⟩
    have hsome := (charsToHexDigits_isSome_iff s).mpr hhex
    rcases h2 : charsToHexDigits s with _ | ds
    · rw [h2] at hsome; simp at hsome
    · exact ⟨digitsToNat 16 ds, by unfold EncryptionKey.from_hex; rw [if_pos hlen, h2]⟩
  · intro hlen
    unfold EncryptionKey.from_hex
    rw [if_neg hlen]
  · rintro ⟨k, hk⟩
    unfold EncryptionKey.from_bytes at hk
    split at hk
    · assumption
    · exact absurd hk (by simp)
  · intro hlen
    exact ⟨digitsToNat 256 (bs.map (fun b => b % 256)),
      by unfold EncryptionKey.from_bytes; rw [if_pos hlen]⟩
  · intro hlen
    unfold EncryptionKey.from_bytes
    rw [if_neg hlen]

/-- Witness for C8: a 1-character hex string and a 1-byte array are
both rejected with `InvalidKeyLength`. -/
theorem c8_witness :
    EncryptionKey.from_hex ['a'] = .error .InvalidKeyLength ∧
    EncryptionKey.from_bytes [0] = .error .InvalidKeyLength :=
  ⟨(c8_key_construction ['a'] [0]).2.1 (by decide),
   (c8_key_construction ['a'] [0]).2.2.2 (by decide)⟩

/-- C10: `new_v0` never fails because of its timestamp argument:
for every modelled f64 timestamp (NaN, infinities, negative, fractional
or out-of-range values included), a valid name and a 16-character hex
random string, `new_v0` succeeds; the timestamp is converted by Rust's
saturating truncation toward zero (NaN and negatives become 0, values
at or above `2 ^ 64` become `u64::MAX`, in-range values are floored). -/
theorem c10_new_v0_timestamp_total (name : List Char) (ts : F64) (rh : List Char)
    (hn : ∃ n, NameStr.new name = .ok n) (hlen : rh.length = 16)
    (hhex : ∀ c ∈ rh, (hexVal c).isSome = true) :
    (∃ out, wasm_new_v0 name ts rh = .ok out) ∧
    f64AsU64 .nan = 0 ∧ f64AsU64 .negInf = 0 ∧ f64AsU64 .posInf = 2 ^ 64 - 1 ∧
    (∀ q : ℚ, q < 0 → f64AsU64 (.finite q) = 0) ∧
    (∀ q : ℚ, (2 ^ 64 : ℚ) ≤ q → f64AsU64 (.finite q) = 2 ^ 64 - 1) ∧
    (∀ q : ℚ, 0 ≤ q → q < (2 ^ 64 : ℚ) → f64AsU64 (.finite q) = q.floor.toNat) := by
  obtain ⟨n, hn⟩ := hn
  have hdrop : dropLeadingPlus rh = rh := by
    rcases hrh : rh with _ | ⟨c, cso⟩
    · rfl
    · have hc : (hexVal c).isSome = true := hhex c (by rw [hrh]; simp)
      have hcp : c ≠ '+' := by
        intro hceq
        rw [hceq] at hc
        have : hexVal '+' = none := by rfl
        rw [this] at hc
        simp at hc
      show (if c = '+' then cso else c :: cso) = c :: cso
      rw [if_neg hcp]
  have hsome := (charsToHexDigits_isSome_iff rh).mpr hhex
  rcases hds : charsToHexDigits rh with _ | ds
  · rw [hds] at hsome; simp at hsome
  · have hdslen : ds.length = 16 := by rw [charsToHexDigits_length hds, hlen]
    have hlt : digitsToNat 16 ds < 2 ^ 64 := by
      have := digitsToNat_lt 16 ds (charsToHexDigits_mem_lt hds)
      rw [hdslen] at this
      calc digitsToNat 16 ds < 16 ^ 16 := this
        _ = 2 ^ 64 := by norm_num
    have hu : u64FromHexStr rh = some (digitsToNat 16 ds) := by
      unfold u64FromHexStr
      rw [hdrop, hds, if_neg (by omega)]
      simp only [if_pos hlt]
    refine ⟨⟨(DynamicTnid.new_v0_with_parts n (f64AsU64 ts) (digitsToNat 16 ds)).render, ?_⟩,
      rfl, rfl, rfl, ?_, ?_, ?_⟩
    · unfold wasm_new_v0
      rw [hn]
      show (if rh.length ≠ 16 then Except.error JsError.randomHexLength
        else match u64FromHexStr rh with
          | none => Except.error JsError.randomHexDigit
          | some r => Except.ok (DynamicTnid.new_v0_with_parts n (f64AsU64 ts) r).render) =
        Except.ok (DynamicTnid.new_v0_with_parts n (f64AsU64 ts) (digitsToNat 16 ds)).render
      rw [if_neg (show ¬rh.length ≠ 16 by omega), hu]
    · intro q hq
      show (if q < 0 then 0 else if (2 ^ 64 : ℚ) ≤ q then 2 ^ 64 - 1
        else q.floor.toNat) = 0
      rw [if_pos hq]
    · intro q hq
      show (if q < 0 then 0 else if (2 ^ 64 : ℚ) ≤ q then 2 ^ 64 - 1
        else q.floor.toNat) = 2 ^ 64 - 1
      rw [if_neg (by linarith), if_pos hq]
    · intro q hq0 hq64
      show (if q < 0 then 0 else if (2 ^ 64 : ℚ) ≤ q then 2 ^ 64 - 1
        else q.floor.toNat) = q.floor.toNat
      rw [if_neg (by linarith), if_neg (by linarith)]

/-- Witness for C10 at a concrete valid name and random string, with a
NaN timestamp. -/
theorem c10_witness :
    (∃ n, NameStr.new ['u', 's', 'r'] = .ok n) ∧
    (['d', 'e', 'a', 'd', 'b', 'e', 'e', 'f', '4', 'b', '1', 'd', 'c', '0', 'd', 'e']
      : List Char).length = 16 ∧
    (∀ c ∈ (['d', 'e', 'a', 'd', 'b', 'e', 'e', 'f', '4', 'b', '1', 'd',
      'c', '0', 'd', 'e'] : List Char), (hexVal c).isSome = true) ∧
    ∃ out, wasm_new_v0 ['u', 's', 'r'] F64.nan
      ['d', 'e', 'a', 'd', 'b', 'e', 'e', 'f', '4', 'b', '1', 'd', 'c', '0', 'd', 'e'] =
      .ok out :=
  ⟨⟨['u', 's', 'r'], rfl⟩, by decide, by decide,
   (c10_new_v0_timestamp_total ['u', 's', 'r'] F64.nan
     ['d', 'e', 'a', 'd', 'b', 'e', 'e', 'f', '4', 'b', '1', 'd', 'c', '0', 'd', 'e']
     ⟨['u', 's', 'r'], rfl⟩ (by decide) (by decide)).1⟩

end Tnid
